import Mathlib

/-
  Verification of the class-plus class builder (src/class.js, 2022 version).

  The development shallowly embeds the four parts of the implementation that
  the checked properties talk about:
    * the hook dispatcher (HookHelper.registerHook / fireHook),
    * the asynchronous conversion helper (asyncify),
    * the asyncify selection pass of the Class builder,
    * the mixin assembly / merge and the instance-default copy of Class.

  JavaScript objects are modelled as insertion-ordered association lists with
  first-occurrence lookup (JS objects have unique keys, so hypotheses of the
  form Nodup appear where a theorem genuinely needs key uniqueness).
-/

namespace ClassPlus

/-- Model of a JavaScript value, as far as the library inspects values:
truthiness, "is a function" (the trailing-callback test in asyncify), and the
structured results (arrays / plain objects) that asyncify produces.
Functions are opaque (identified by a tag). -/
inductive JSVal where
  | undef
  | null
  | bool (b : Bool)
  | num (n : Int)
  | str (s : String)
  | arr (elems : List JSVal)
  | obj (fields : List (String × JSVal))
  | fn (id : Nat)

/-- JavaScript truthiness for the modelled values (used by `if (err)`,
`if (proto[key] && ...)` and similar tests in the source). -/
def truthy : JSVal → Bool
  | .undef => false
  | .null => false
  | .bool b => b
  | .num n => !(n == 0)
  | .str s => !(s == "")
  | .arr _ => true
  | .obj _ => true
  | .fn _ => true

/-- Model of `typeof(v) == 'function'`. -/
def isFunctionV : JSVal → Bool
  | .fn _ => true
  | _ => false

/-- Property lookup on a JS object modelled as an association list
(first occurrence wins; JS objects have unique keys). -/
def getProp {α : Type} : List (String × α) → String → Option α
  | [], _ => none
  | (k, v) :: rest, key => if k = key then some v else getProp rest key

/-- Model of `key in o` restricted to own properties. -/
def hasProp {α : Type} (l : List (String × α)) (key : String) : Bool :=
  (getProp l key).isSome

/-- Property assignment `o[key] = v`: overwrite the existing binding,
or append a new one. -/
def setProp {α : Type} : List (String × α) → String → α → List (String × α)
  | [], key, v => [(key, v)]
  | (k, w) :: rest, key, v =>
      if k = key then (key, v) :: rest else (k, w) :: setProp rest key v

/-- Does the character list `l` start with `pre`?  (Helper used to model the
anchored regular-expression tests of the source on concrete strings.) -/
def charsBegin : List Char → List Char → Bool
  | [], _ => true
  | _ :: _, [] => false
  | a :: as, b :: bs => a == b && charsBegin as bs

/-- Model of `String.startsWith`: the source tests keys with anchored regular
expressions such as `/^__(static|asyncify|events|hooks)/`. -/
def strStartsWith (s pre : String) : Bool :=
  charsBegin pre.data s.data

/-- Model of `String.endsWith`, used for the callback-parameter sniffing
regular expression. -/
def strEndsWith (s suf : String) : Bool :=
  charsBegin suf.data.reverse s.data.reverse

/-! ## The asynchronous conversion helper (`asyncify`, src/class.js 218-244)

An original callback-style method is modelled by the list of arguments it
eventually passes to its completion callback: `orig : List JSVal → List JSVal`
maps the (non-callback) call arguments to the callback-invocation arguments.
A call of the converted method either passes through unchanged in classic
callback style, or returns a deferred result (`Except`: `error` = rejected,
`ok` = resolved). -/

/-- Result of calling a method converted by `asyncify`: either the call was
delegated to the original method unchanged, classic callback style (the
delegated argument list is recorded), or a deferred result was returned. -/
inductive CallResult where
  | classic (args : List JSVal)
  | promise (r : Except JSVal JSVal)

/-- The object built by the `argNames.forEach` loop of the source:
`resultsObj[name] = results[idx]`, with `idx` counting up from 0 and
out-of-range indices yielding `undefined`. -/
def buildResultsObj : List String → List JSVal → Nat → List (String × JSVal) →
    List (String × JSVal)
  | [], _, _, o => o
  | name :: rest, results, idx, o =>
      buildResultsObj rest results (idx + 1) (setProp o name (results.getD idx JSVal.undef))

/-- The synthesized completion callback of `asyncify` (the
`function(...results)` literal of the source): `results.shift()` is the error
indicator; a truthy error rejects, otherwise the remaining values are shaped
into the resolution value. -/
def asyncifySettle (argNames : Option (List String)) (cbArgs : List JSVal) :
    Except JSVal JSVal :=
  if truthy (cbArgs.headD JSVal.undef) then Except.error (cbArgs.headD JSVal.undef)
  else
    match argNames with
    | some names => Except.ok (JSVal.obj (buildResultsObj names cbArgs.tail 0 []))
    | none =>
        if cbArgs.tail.length > 1 then Except.ok (JSVal.arr cbArgs.tail)
        else Except.ok (cbArgs.tail.headD JSVal.undef)

/-- The last call argument, `args[args.length - 1]` (`undefined` for an empty
argument list). -/
def lastArg (args : List JSVal) : JSVal :=
  args.getLastD JSVal.undef

/-- The dual-mode wrapper produced by `asyncify(origFunc, argNames)`:
if the final argument is a function the call is passed through unchanged in
classic callback style, otherwise the original method is invoked with a
synthesized completion callback and a deferred result is returned. -/
def asyncify (origFunc : List JSVal → List JSVal) (argNames : Option (List String))
    (args : List JSVal) : CallResult :=
  if isFunctionV (lastArg args) then CallResult.classic args
  else CallResult.promise (asyncifySettle argNames (origFunc args))

/-! ## The hook dispatcher (`HookHelper`, src/class.js 157-216)

A listener is either an async-native function (`constructor.name ===
"AsyncFunction"`), modelled by the settlement of its returned promise
(`none` = fulfilled, `some r` = rejected with reason `r`), or a
callback-style function, modelled by the first argument it passes to its
completion callback together with whether it invokes that callback
synchronously (inside the handler call, i.e. before `nextThread++` runs).

A fire is instrumented with a trace of scheduler-visible events:
`invoke i` / `complete i` mark the start and the completion (callback
invoked, or promise settled) of the listener at position `i`, and `yield`
marks a dispatcher-scheduled fresh turn (`process.nextTick`, or the
microtask of `.then(iterator, callback)`).  The overall result is `none`
when the fire's completion callback is invoked cleanly and `some r` when it
is invoked with `r` on the abort path.  The model fires over the listener
sequence as registered at fire start (mid-flight registry mutation, an
acknowledged ambiguity of the source, is out of scope). -/

/-- A hook listener. -/
inductive Handler where
  | asyncFn (f : JSVal → Option JSVal)
  | cbFn (f : JSVal → JSVal × Bool)

/-- Trace events of one fire. -/
inductive Ev where
  | invoke (i : Nat)
  | complete (i : Nat)
  | yield
deriving DecidableEq

/-- Does a listener abort the sequence when invoked with this payload?
An async-native listener aborts by rejecting (with any reason); a
callback-style listener aborts exactly when it passes a truthy first
argument to its completion callback. -/
def handlerAbort : Handler → JSVal → Option JSVal
  | .asyncFn f, p => f p
  | .cbFn f, p => if truthy (f p).1 then some (f p).1 else none

/-- The `iterator` closure of `fireHook`: run the listeners one at a time in
index order, stopping at the first abort.  After a callback-style listener
completes cleanly and synchronously the next step is scheduled with
`process.nextTick` (a `yield`); after an async-native listener fulfils, the
next step runs on the `.then` microtask (also a `yield`); a callback-style
listener that completes on a later turn already broke the stack, so the next
step runs directly. -/
def hookIterator : List Handler → Nat → JSVal → List Ev × Option JSVal
  | [], _, _ => ([], none)
  | Handler.asyncFn f :: rest, i, p =>
      match f p with
      | some e => ([Ev.invoke i, Ev.complete i], some e)
      | none =>
          let r := hookIterator rest (i + 1) p
          (Ev.invoke i :: Ev.complete i :: Ev.yield :: r.1, r.2)
  | Handler.cbFn f :: rest, i, p =>
      let (e, sync) := f p
      if truthy e then ([Ev.invoke i, Ev.complete i], some e)
      else
        let r := hookIterator rest (i + 1) p
        if sync then (Ev.invoke i :: Ev.complete i :: Ev.yield :: r.1, r.2)
        else (Ev.invoke i :: Ev.complete i :: r.1, r.2)

/-- The hook registry: `this.hooks`, a map from hook name to the ordered
listener sequence. -/
abbrev HookReg := List (String × List Handler)

/-- `registerHook(name, handler)`: append the handler to the named sequence,
creating the sequence if absent. -/
def registerHook (reg : HookReg) (name : String) (h : Handler) : HookReg :=
  match getProp reg name with
  | some hs => setProp reg name (hs ++ [h])
  | none => setProp reg name [h]

/-- `fireHook(name, thingy, callback)`: with no registered listeners the
completion callback is scheduled with `process.nextTick` (a single `yield`,
clean completion); otherwise the iterator runs over the registered
sequence. -/
def fireHookRun (reg : HookReg) (name : String) (p : JSVal) : List Ev × Option JSVal :=
  match getProp reg name with
  | none => ([Ev.yield], none)
  | some [] => ([Ev.yield], none)
  | some hs => hookIterator hs 0 p

/-- Events of the listener sequence itself (everything but `yield`). -/
def evNotYield : Ev → Bool
  | .yield => false
  | _ => true

/-- The canonical strictly-sequential event sequence: listener `i` is invoked
and completes before listener `i+1` is invoked, for `k` listeners starting at
index `i`. -/
def seqEventsFrom : Nat → Nat → List Ev
  | _, 0 => []
  | i, k + 1 => Ev.invoke i :: Ev.complete i :: seqEventsFrom (i + 1) k

/-! ## The asyncify selection pass of the Class builder (src/class.js 258-297)

A prototype is modelled structurally as an association list of properties.
A function-valued property records the reflection data the pass inspects:
whether its `constructor.name` is `"AsyncFunction"`, whether the `__async`
marker has been set, its declared parameter names (what
`toString()` exposes of the signature), plus an instrumentation counter
`wrapDepth` counting how many times the property has been wrapped. -/

/-- Reflection view of a function-valued property. -/
structure Method where
  isAsyncFn : Bool
  asyncMark : Bool
  wrapDepth : Nat
  params : List String
deriving DecidableEq

/-- A prototype (or static-table) property: a function or a plain value. -/
inductive PropVal where
  | func (m : Method)
  | val (v : JSVal)

/-- Truthiness of a property (`if (proto[key] && ...)`); functions are
truthy. -/
def truthyProp : PropVal → Bool
  | .func _ => true
  | .val v => truthy v

/-- Has the `__async` conversion marker been set on this property? -/
def markedProp : PropVal → Bool
  | .func m => m.asyncMark
  | .val _ => false

/-- Is `proto[key].constructor.name === "AsyncFunction"`?  (Never true for a
plain value.) -/
def asyncFnProp : PropVal → Bool
  | .func m => m.isAsyncFn
  | .val _ => false

/-- Model of `typeof(proto[key]) == 'function'`. -/
def isFuncProp : PropVal → Bool
  | .func _ => true
  | .val _ => false

/-- Wrap count of a property (0 for plain values). -/
def wrapDepthProp : PropVal → Nat
  | .func m => m.wrapDepth
  | .val _ => 0

/-- The effect of `proto[key] = asyncify(proto[key], ...); proto[key].__async
= true`: the property becomes an async-native function (the wrapper is an
`async function`), carries the marker, is one wrap deeper, and its visible
signature is the wrapper's rest parameter. -/
def convertProp (p : PropVal) : PropVal :=
  .func { isAsyncFn := true, asyncMark := true,
          wrapDepth := wrapDepthProp p + 1, params := ["...args"] }

/-- The reserved-name test `/^(__name|constructor|prototype)$/` used by the
reflective asyncify branches and by the mixin prototype copy. -/
def protoReservedName (k : String) : Bool :=
  k == "__name" || k == "constructor" || k == "prototype"

/-- Model of the sniffing regular expression
`/^\s*\S+\s*\([^\)]*(callback|cb)\s*\)\s*\{/` applied to the method source:
the text between the parentheses (the declared parameter list) must end,
modulo trailing whitespace, in `callback` or `cb`, i.e. the last declared
parameter's name ends with `callback` or `cb`. -/
def sniffCallback (params : List String) : Bool :=
  match params.getLast? with
  | some p => strEndsWith p "callback" || strEndsWith p "cb"
  | none => false

/-- Sniff test lifted to properties (only functions have a signature). -/
def sniffProp : PropVal → Bool
  | .func m => sniffCallback m.params
  | .val _ => false

/-- The `__asyncify` directive value, when truthy: a simple flag, an array of
method names, a regular expression (abstracted to its match predicate on
method names), or a hash from method name to callback argument names. -/
inductive AsyncifySpec where
  | flag
  | names (keys : List String)
  | pattern (matchName : String → Bool)
  | mapping (entries : List (String × List String))

/-- The guard shared by the array and hash branches:
`proto[key] && !proto[key].__async && (proto[key].constructor.name !==
"AsyncFunction")`. -/
def asyncifyGuard (p : PropVal) : Bool :=
  truthyProp p && !markedProp p && !asyncFnProp p

abbrev Proto := List (String × PropVal)

/-- One step of the array/hash branch for one method name:
`if (proto[key] && !proto[key].__async && (proto[key].constructor.name !==
"AsyncFunction")) { proto[key] = asyncify(proto[key]); proto[key].__async =
true; }`. -/
def asyncifyKeyStep (pr : Proto) (key : String) : Proto :=
  match getProp pr key with
  | some p => if asyncifyGuard p then setProp pr key (convertProp p) else pr
  | none => pr

/-- The array branch (and, with the hash's key list, the hash branch): walk
the given method names in order, converting each existing property that
passes the guard. -/
def applyAsyncifyKeys (keys : List String) (proto : Proto) : Proto :=
  keys.foldl asyncifyKeyStep proto

/-- The per-property condition of the flag branch: not a reserved name, a
function, sniffed as callback-style, not yet marked, not async-native. -/
def flagSelect (k : String) (p : PropVal) : Bool :=
  !protoReservedName k && isFuncProp p && sniffProp p && !markedProp p && !asyncFnProp p

/-- The per-property condition of the regular-expression branch. -/
def patternSelect (matchName : String → Bool) (k : String) (p : PropVal) : Bool :=
  !protoReservedName k && isFuncProp p && matchName k && !markedProp p && !asyncFnProp p

/-- The reflective branches walk `Object.getOwnPropertyNames(proto)` and
rewrite each selected property in place; with unique keys this is a map over
the property list. -/
def mapConvert (sel : String → PropVal → Bool) (proto : Proto) : Proto :=
  proto.map (fun e => if sel e.1 e.2 then (e.1, convertProp e.2) else e)

/-- The whole optional asyncify pass, dispatching on the directive value as
the source does (array / regular expression / hash / plain truthy flag). -/
def applyAsyncify : AsyncifySpec → Proto → Proto
  | .flag => mapConvert flagSelect
  | .names ks => applyAsyncifyKeys ks
  | .pattern f => mapConvert (patternSelect f)
  | .mapping es => applyAsyncifyKeys (es.map Prod.fst)

/-! ## Mixin merging (src/class.js 304-322) -/

/-- The construct being augmented: its instance template (prototype) and its
static table. -/
structure Construct where
  proto : Proto
  statics : Proto

/-- The reserved-name test `/^(name|length|prototype)$/` of the static-member
copy. -/
def staticReservedName (k : String) : Bool :=
  k == "name" || k == "length" || k == "prototype"

/-- One assignment of the mixin copy loops: copy the entry unless its name is
reserved or already present on the (growing) target. -/
def mergeStep (excl : String → Bool) (pr : Proto) (e : String × PropVal) : Proto :=
  if !excl e.1 && !hasProp pr e.1 then pr ++ [e] else pr

/-- One copy loop of the mixin merge: walk the source's own property list in
order and append every entry whose name is not reserved and not already
present on the (growing) target. -/
def mergeEntries (excl : String → Bool) (tgt src : Proto) : Proto :=
  src.foldl (mergeStep excl) tgt

/-- Merge one mixin class: prototype members (skipping
`__name`/`constructor`/`prototype`) and static members (skipping
`name`/`length`/`prototype`), never overwriting an existing entry. -/
def mergeOne (tgt src : Construct) : Construct :=
  { proto := mergeEntries protoReservedName tgt.proto src.proto,
    statics := mergeEntries staticReservedName tgt.statics src.statics }

/-- The mixin loop: merge the mixin list into the target in order. -/
def mergeMixins (tgt : Construct) (ms : List Construct) : Construct :=
  ms.foldl mergeOne tgt

/-! ## Mixin-list assembly (src/class.js 300-302) and instance defaults
(src/class.js 330-335) -/

/-- An entry of the assembled mixin list: one of the two capability classes,
or a user-supplied mixin class (identified abstractly). -/
inductive MixinSrc where
  | eventEmitter
  | hookHelper
  | user (id : Nat)
deriving DecidableEq

/-- The portion of the configuration the mixin-assembly step reads:
`__mixins` (absent, or the caller's array), `__events`, `__hooks`. -/
structure MixArgs where
  mixinsList : Option (List MixinSrc)
  eventsFlag : Bool
  hooksFlag : Bool

/-- `var mixins = args.__mixins || []`, then `unshift` of the capability
classes.  `unshift` mutates the caller's array in place, so when `__mixins`
was supplied the configuration object itself ends up holding the extended
list; when it was absent a fresh array is used and the configuration is
untouched.  The result pairs the list the merge loop will walk with the
configuration as the caller observes it afterwards. -/
def assembleMixins (args : MixArgs) : List MixinSrc × MixArgs :=
  let mixins0 := args.mixinsList.getD []
  let mixins1 := if args.eventsFlag then MixinSrc.eventEmitter :: mixins0 else mixins0
  let mixins2 := if args.hooksFlag then MixinSrc.hookHelper :: mixins1 else mixins1
  (mixins2,
    match args.mixinsList with
    | some _ => { args with mixinsList := some mixins2 }
    | none => args)

/-- The key filter of the instance-default copy,
`!key.match(/^__(static|asyncify|events|hooks)/)`: a key is copied unless it
starts with one of the four listed prefixes. -/
def copiedAsDefault (k : String) : Bool :=
  !(strStartsWith k "__static" || strStartsWith k "__asyncify" ||
    strStartsWith k "__events" || strStartsWith k "__hooks")

/-- One assignment of the instance-default copy loop. -/
def defaultStep (pr : Proto) (e : String × PropVal) : Proto :=
  if copiedAsDefault e.1 then setProp pr e.1 e.2 else pr

/-- The final loop of the Class builder: for every key of the configuration
(in insertion order, directive values modelled opaquely), assign it onto the
prototype unless the filter excludes it. -/
def applyDefaults (args : Proto) (proto : Proto) : Proto :=
  args.foldl defaultStep proto

/-! ## Concrete data used to evaluate the theorems on sample inputs -/

/-- A callback-style listener that completes cleanly on the same thread. -/
def listnA : Handler := Handler.cbFn (fun _ => (JSVal.undef, true))

/-- An async-native listener whose promise fulfils. -/
def listnB : Handler := Handler.asyncFn (fun _ => none)

/-- A callback-style listener that synchronously reports the error "boom". -/
def listnBoom : Handler := Handler.cbFn (fun _ => (JSVal.str "boom", true))

/-- A registry with two listeners registered, in order, under "x". -/
def regSample : HookReg := registerHook (registerHook [] "x" listnA) "x" listnB

/-- An original method that invokes its callback as `(null, 8, "oz")`. -/
def origPour : List JSVal → List JSVal :=
  fun _ => [JSVal.null, JSVal.num 8, JSVal.str "oz"]

/-- An async-native method (would be skipped by every selection policy). -/
def mGoSample : Method :=
  { isAsyncFn := true, asyncMark := false, wrapDepth := 0, params := ["x", "cb"] }

/-- A plain callback-style method. -/
def mRunSample : Method :=
  { isAsyncFn := false, asyncMark := false, wrapDepth := 0, params := ["x", "cb"] }

/-- A prototype holding the two methods above. -/
def protoSample : Proto :=
  [("go", PropVal.func mGoSample), ("run", PropVal.func mRunSample)]

/-- An explicit asyncify selection naming both methods. -/
def specSample : AsyncifySpec := AsyncifySpec.names ["run", "go"]

/-- A method whose last declared parameter is named `mycb` - not literally
`callback` or `cb`, but ending in `cb`. -/
def mMycb : Method :=
  { isAsyncFn := false, asyncMark := false, wrapDepth := 0, params := ["data", "mycb"] }

/-- A method with last parameter literally named `callback`. -/
def mSleep : Method :=
  { isAsyncFn := false, asyncMark := false, wrapDepth := 0, params := ["ms", "callback"] }

/-- A method with no callback-style parameter. -/
def mFoo : Method :=
  { isAsyncFn := false, asyncMark := false, wrapDepth := 0, params := ["x"] }

/-- A prototype with one sniffable and one plain method. -/
def protoSniffSample : Proto :=
  [("sleep", PropVal.func mSleep), ("foo", PropVal.func mFoo)]

/-- A merge target owning the member "own". -/
def tgtSample : Construct := ⟨[("own", PropVal.val (JSVal.num 1))], []⟩

/-- A first mixin contributing "shared". -/
def mixASample : Construct := ⟨[("shared", PropVal.val (JSVal.num 2))], []⟩

/-- A second mixin also contributing "shared" (with a different value). -/
def mixBSample : Construct := ⟨[("shared", PropVal.val (JSVal.num 3))], []⟩

/-- A configuration fragment with one ordinary key and one reserved key. -/
def argsSample : Proto :=
  [("plain", PropVal.val (JSVal.num 2)), ("__events", PropVal.val (JSVal.bool true))]

/-- A configuration with an explicit one-element mixin list and the hooks
flag set. -/
def mixArgsSample : MixArgs :=
  { mixinsList := some [MixinSrc.user 0], eventsFlag := false, hooksFlag := true }

/-! ## Association-list lemmas -/

theorem getProp_setProp_self {α : Type} (l : List (String × α)) (key : String) (v : α) :
    getProp (setProp l key v) key = some v := by
  induction l with
  | nil => simp [setProp, getProp]
  | cons hd tl ih =>
      obtain ⟨k, w⟩ := hd
      by_cases hk : k = key
      · simp [setProp, hk, getProp]
      · simp [setProp, hk, getProp, ih]

theorem getProp_setProp_of_ne {α : Type} (l : List (String × α)) (key k2 : String) (v : α)
    (h : key ≠ k2) : getProp (setProp l key v) k2 = getProp l k2 := by
  induction l with
  | nil => simp [setProp, getProp, h]
  | cons hd tl ih =>
      obtain ⟨k, w⟩ := hd
      by_cases hk : k = key
      · subst hk
        simp [setProp, getProp, h]
      · simp [setProp, hk, getProp, ih]

theorem getProp_append {α : Type} (l1 l2 : List (String × α)) (key : String) :
    getProp (l1 ++ l2) key =
      match getProp l1 key with
      | some v => some v
      | none => getProp l2 key := by
  induction l1 with
  | nil => simp [getProp]
  | cons hd tl ih =>
      obtain ⟨k, w⟩ := hd
      by_cases hk : k = key
      · simp [getProp, hk]
      · simp [getProp, hk, ih]

/-! ## Hook dispatcher lemmas -/

/-- The iterator visits listeners strictly sequentially in index order:
filtering the scheduling turns out of the trace leaves exactly
invoke/complete pairs for a prefix of the sequence, and the whole sequence was
visited whenever the fire completed cleanly. -/
theorem hookIterator_seq (hs : List Handler) (p : JSVal) :
    ∀ i, ∃ k, k ≤ hs.length ∧
      ((hookIterator hs i p).1.filter evNotYield) = seqEventsFrom i k ∧
      ((hookIterator hs i p).2 = none → k = hs.length) := by
  induction hs with
  | nil =>
      intro i
      exact ⟨0, Nat.le_refl 0, by simp [hookIterator, seqEventsFrom], fun _ => rfl⟩
  | cons h rest ih =>
      intro i
      cases h with
      | asyncFn f =>
          cases hf : f p with
          | some e =>
              refine ⟨1, by simp, ?_, ?_⟩
              · simp [hookIterator, hf, evNotYield, seqEventsFrom]
              · intro hnone
                simp [hookIterator, hf] at hnone
          | none =>
              obtain ⟨k, hk, htr, herr⟩ := ih (i + 1)
              refine ⟨k + 1, by simpa using Nat.succ_le_succ hk, ?_, ?_⟩
              · simp [hookIterator, hf, evNotYield, seqEventsFrom, htr]
              · intro hnone
                simp [hookIterator, hf] at hnone
                simp [herr hnone]
      | cbFn f =>
          rcases hf : f p with ⟨e, sync⟩
          cases ht : truthy e with
          | true =>
              refine ⟨1, by simp, ?_, ?_⟩
              · simp [hookIterator, hf, ht, evNotYield, seqEventsFrom]
              · intro hnone
                simp [hookIterator, hf, ht] at hnone
          | false =>
              obtain ⟨k, hk, htr, herr⟩ := ih (i + 1)
              refine ⟨k + 1, by simpa using Nat.succ_le_succ hk, ?_, ?_⟩
              · cases sync <;>
                  simp [hookIterator, hf, ht, evNotYield, seqEventsFrom, htr]
              · intro hnone
                cases sync <;> simp [hookIterator, hf, ht] at hnone <;>
                  simp [herr hnone]

/-- If every listener before position `k` runs cleanly and the listener at
position `k` aborts with reason `e`, the iterator completes with `e` and no
listener past position `k` is ever invoked. -/
theorem hookIterator_abort (p e : JSVal) :
    ∀ (hs : List Handler) (i k : Nat) (hk : Handler),
      (∀ j h, j < k → hs.get? j = some h → handlerAbort h p = none) →
      hs.get? k = some hk → handlerAbort hk p = some e →
      (hookIterator hs i p).2 = some e ∧
        ∀ j, i + k < j → Ev.invoke j ∉ (hookIterator hs i p).1 := by
  intro hs
  induction hs with
  | nil =>
      intro i k hk _ hget _
      simp at hget
  | cons h rest ih =>
      intro i k hk hpre hget habort
      cases k with
      | zero =>
          have hh : h = hk := by simpa using hget
          subst hh
          cases h with
          | asyncFn f =>
              have hf : f p = some e := habort
              constructor
              · simp [hookIterator, hf]
              · intro j hj
                have hji : j ≠ i := by omega
                simp [hookIterator, hf, hji]
          | cbFn f =>
              rcases hf : f p with ⟨e1, s1⟩
              simp only [handlerAbort, hf] at habort
              cases ht : truthy e1 with
              | false => simp [ht] at habort
              | true =>
                  rw [if_pos ht] at habort
                  have he : e1 = e := by simpa using habort
                  subst he
                  constructor
                  · simp [hookIterator, hf, ht]
                  · intro j hj
                    have hji : j ≠ i := by omega
                    simp [hookIterator, hf, ht, hji]
      | succ k0 =>
          have h0 : handlerAbort h p = none := hpre 0 h (Nat.succ_pos k0) (by simp)
          have hget0 : rest.get? k0 = some hk := by simpa using hget
          have hpre0 : ∀ j hh, j < k0 → rest.get? j = some hh → handlerAbort hh p = none := by
            intro j hh hj hg
            exact hpre (j + 1) hh (Nat.succ_lt_succ hj) (by simpa using hg)
          obtain ⟨herr, hmem⟩ := ih (i + 1) k0 hk hpre0 hget0 habort
          cases h with
          | asyncFn f =>
              have hf : f p = none := h0
              constructor
              · simp [hookIterator, hf, herr]
              · intro j hj
                have hji : j ≠ i := by omega
                have hm := hmem j (by omega)
                simp [hookIterator, hf, hji]
                exact hm
          | cbFn f =>
              rcases hf : f p with ⟨e1, s1⟩
              simp only [handlerAbort, hf] at h0
              cases ht : truthy e1 with
              | true => simp [ht] at h0
              | false =>
                  constructor
                  · cases s1 <;> simp [hookIterator, hf, ht, herr]
                  · intro j hj
                    have hji : j ≠ i := by omega
                    have hm := hmem j (by omega)
                    cases s1 <;> simp [hookIterator, hf, ht, hji] <;> exact hm

/-! ## Claim C1 -/

/-- C1: registering a hook listener appends it to the named sequence, and
`fireHook` invokes the registered listeners strictly in registration order and
strictly sequentially: stripped of scheduling turns, the trace of a fire is
exactly `invoke 0, complete 0, invoke 1, complete 1, ...` for a prefix of the
sequence (the whole sequence when the fire completes cleanly), so every
listener has fully completed before the next one begins and no two listeners
of the same fire overlap. -/
theorem hook_fire_registration_order_sequential :
    (∀ (reg : HookReg) (name : String) (h : Handler),
       getProp (registerHook reg name h) name = some (((getProp reg name).getD []) ++ [h]))
    ∧ (∀ (reg : HookReg) (name : String) (p : JSVal) (hs : List Handler),
        getProp reg name = some hs →
        ∃ k, k ≤ hs.length ∧
          ((fireHookRun reg name p).1.filter evNotYield) = seqEventsFrom 0 k ∧
          ((fireHookRun reg name p).2 = none → k = hs.length)) := by
  constructor
  · intro reg name h
    unfold registerHook
    cases hg : getProp reg name with
    | none => simp [hg, getProp_setProp_self]
    | some hs => simp [hg, getProp_setProp_self]
  · intro reg name p hs hg
    cases hs with
    | nil =>
        refine ⟨0, Nat.le_refl 0, ?_, fun _ => rfl⟩
        simp [fireHookRun, hg, evNotYield, seqEventsFrom]
    | cons h t =>
        have hrw : fireHookRun reg name p = hookIterator (h :: t) 0 p := by
          simp [fireHookRun, hg]
        rw [hrw]
        exact hookIterator_seq (h :: t) p 0

/-- Evaluation of C1 on a concrete registry: two listeners registered in
order under "x", fired with an `undefined` payload. -/
theorem hook_fire_registration_order_sequential_witness :
    ∃ k, k ≤ ([listnA, listnB] : List Handler).length ∧
      ((fireHookRun regSample "x" JSVal.undef).1.filter evNotYield) = seqEventsFrom 0 k ∧
      ((fireHookRun regSample "x" JSVal.undef).2 = none →
        k = ([listnA, listnB] : List Handler).length) :=
  hook_fire_registration_order_sequential.2 regSample "x" JSVal.undef [listnA, listnB] rfl

/-! ## Claim C2 -/

/-- C2: if every listener before position `k` of the registered sequence
completes cleanly and the listener at position `k` signals failure (a
callback-style listener passes the truthy value `e` to its completion
callback, or an async-native listener's promise rejects with `e`), then no
listener past position `k` is ever invoked during that fire, and the fire's
overall completion carries exactly `e` as its failure reason. -/
theorem hook_fire_abort_on_failure (reg : HookReg) (name : String) (p : JSVal)
    (hs : List Handler) (k : Nat) (e : JSVal) (hk : Handler)
    (hg : getProp reg name = some hs)
    (hpre : ∀ j h, j < k → hs.get? j = some h → handlerAbort h p = none)
    (hget : hs.get? k = some hk) (habort : handlerAbort hk p = some e) :
    (fireHookRun reg name p).2 = some e ∧
      ∀ j, k < j → Ev.invoke j ∉ (fireHookRun reg name p).1 := by
  cases hs with
  | nil => simp at hget
  | cons h t =>
      have hrw : fireHookRun reg name p = hookIterator (h :: t) 0 p := by
        simp [fireHookRun, hg]
      rw [hrw]
      have := hookIterator_abort p e (h :: t) 0 k hk hpre hget habort
      simpa using this

/-- Evaluation of C2 on a concrete registry: of three listeners the second
fails with "boom"; the fire completes with "boom" and the third listener is
never invoked. -/
theorem hook_fire_abort_on_failure_witness :
    (fireHookRun [("x", [listnA, listnBoom, listnB])] "x" JSVal.undef).2
        = some (JSVal.str "boom")
    ∧ ∀ j, 1 < j →
        Ev.invoke j ∉ (fireHookRun [("x", [listnA, listnBoom, listnB])] "x" JSVal.undef).1 :=
  hook_fire_abort_on_failure [("x", [listnA, listnBoom, listnB])] "x" JSVal.undef
    [listnA, listnBoom, listnB] 1 (JSVal.str "boom") listnBoom rfl
    (by
      intro j h hj hg
      interval_cases j
      have hh : listnA = h := by simpa using hg
      subst hh
      rfl)
    rfl rfl

/-! ## Claim C5 -/

/-- C5: firing a hook name with no registered listeners (no sequence, or an
empty sequence) completes successfully, and the completion is delivered only
after yielding exactly one scheduling turn - never synchronously within the
same call stack as the fire invocation. -/
theorem hook_fire_empty_always_async (reg : HookReg) (name : String) (p : JSVal)
    (h : getProp reg name = none ∨ getProp reg name = some []) :
    fireHookRun reg name p = ([Ev.yield], none) := by
  rcases h with h | h <;> simp [fireHookRun, h]

/-- Evaluation of C5 on the empty registry. -/
theorem hook_fire_empty_always_async_witness :
    fireHookRun [] "x" JSVal.undef = ([Ev.yield], none) :=
  hook_fire_empty_always_async [] "x" JSVal.undef (Or.inl rfl)

/-! ## Asynchronous conversion helper lemmas -/

/-- Names not assigned by the `forEach` loop keep their previous binding. -/
theorem getProp_buildResultsObj_not_mem (results : List JSVal) :
    ∀ (names : List String) (idx : Nat) (o : List (String × JSVal)) (n : String),
      n ∉ names → getProp (buildResultsObj names results idx o) n = getProp o n := by
  intro names
  induction names with
  | nil => intro idx o n _; rfl
  | cons nm rest ih =>
      intro idx o n hn
      have hn1 : n ≠ nm := by
        intro hcontra
        exact hn (by simp [hcontra])
      have hn2 : n ∉ rest := fun hm => hn (List.mem_cons_of_mem _ hm)
      show getProp (buildResultsObj rest results (idx + 1)
        (setProp o nm (results.getD idx JSVal.undef))) n = getProp o n
      rw [ih (idx + 1) _ n hn2, getProp_setProp_of_ne _ nm n _ (Ne.symm hn1)]

/-- With distinct field names, the object built by the `forEach` loop maps
the `i`-th name to the `i`-th remaining result value (missing values giving
`undefined`). -/
theorem getProp_buildResultsObj (results : List JSVal) :
    ∀ (names : List String), names.Nodup →
      ∀ (idx : Nat) (o : List (String × JSVal)) (i : Nat) (hi : i < names.length),
        getProp (buildResultsObj names results idx o) (names.get ⟨i, hi⟩)
          = some (results.getD (idx + i) JSVal.undef) := by
  intro names
  induction names with
  | nil => intro _ idx o i hi; exact absurd hi (by simp)
  | cons nm rest ih =>
      intro hnd idx o i hi
      have hnm : nm ∉ rest := (List.nodup_cons.mp hnd).1
      have hndr : rest.Nodup := (List.nodup_cons.mp hnd).2
      cases i with
      | zero =>
          show getProp (buildResultsObj rest results (idx + 1)
            (setProp o nm (results.getD idx JSVal.undef))) nm
            = some (results.getD (idx + 0) JSVal.undef)
          rw [getProp_buildResultsObj_not_mem results rest (idx + 1) _ nm hnm,
              getProp_setProp_self, Nat.add_zero]
      | succ i0 =>
          have hi0 : i0 < rest.length := by simpa using hi
          show getProp (buildResultsObj rest results (idx + 1)
            (setProp o nm (results.getD idx JSVal.undef))) (rest.get ⟨i0, hi0⟩)
            = some (results.getD (idx + (i0 + 1)) JSVal.undef)
          rw [ih hndr (idx + 1) _ i0 hi0,
              show idx + 1 + i0 = idx + (i0 + 1) from by omega]

/-! ## Claim C3 -/

/-- C3: a converted method called without a trailing callable returns a
deferred result; it fails with exactly the truthy first value the original
passes to the synthesized completion callback, and otherwise succeeds with
(a) when field names were supplied, a mapping assigning each name (by
position) the corresponding result value, (b) an ordered sequence of all
result values when more than one was produced, (c) the single value when
exactly one was produced, and (d) `undefined` when none were. -/
theorem asyncify_promise_mode_results (origFunc : List JSVal → List JSVal)
    (argNames : Option (List String)) (args : List JSVal)
    (hnf : isFunctionV (lastArg args) = false) :
    (truthy ((origFunc args).headD JSVal.undef) = true →
       asyncify origFunc argNames args
         = CallResult.promise (Except.error ((origFunc args).headD JSVal.undef)))
    ∧ (∀ ns, argNames = some ns → truthy ((origFunc args).headD JSVal.undef) = false →
        ns.Nodup → ∀ i, ∀ hi : i < ns.length,
        ∃ o, asyncify origFunc argNames args = CallResult.promise (Except.ok (JSVal.obj o)) ∧
          getProp o (ns.get ⟨i, hi⟩) = some ((origFunc args).tail.getD i JSVal.undef))
    ∧ (argNames = none → truthy ((origFunc args).headD JSVal.undef) = false →
        1 < (origFunc args).tail.length →
        asyncify origFunc argNames args
          = CallResult.promise (Except.ok (JSVal.arr (origFunc args).tail)))
    ∧ (argNames = none → truthy ((origFunc args).headD JSVal.undef) = false →
        (origFunc args).tail.length = 1 →
        asyncify origFunc argNames args
          = CallResult.promise (Except.ok ((origFunc args).tail.headD JSVal.undef)))
    ∧ (argNames = none → truthy ((origFunc args).headD JSVal.undef) = false →
        (origFunc args).tail.length = 0 →
        asyncify origFunc argNames args = CallResult.promise (Except.ok JSVal.undef)) := by
  have hrw : asyncify origFunc argNames args
      = CallResult.promise (asyncifySettle argNames (origFunc args)) := by
    simp [asyncify, hnf]
  have hne : ∀ h : truthy ((origFunc args).headD JSVal.undef) = false,
      ¬(truthy ((origFunc args).headD JSVal.undef) = true) := by
    intro h hcontra
    rw [h] at hcontra
    exact Bool.false_ne_true hcontra
  refine ⟨?_, ?_, ?_, ?_, ?_⟩
  · intro herr
    rw [hrw]
    unfold asyncifySettle
    rw [if_pos herr]
  · intro ns hns herr hnd i hi
    subst hns
    refine ⟨buildResultsObj ns (origFunc args).tail 0 [], ?_, ?_⟩
    · rw [hrw]
      unfold asyncifySettle
      rw [if_neg (hne herr)]
    · have := getProp_buildResultsObj (origFunc args).tail ns hnd 0 [] i hi
      simpa using this
  · intro hns herr hlen
    subst hns
    rw [hrw]
    unfold asyncifySettle
    rw [if_neg (hne herr)]
    have : (origFunc args).tail.length > 1 := hlen
    rw [if_pos this]
  · intro hns herr hlen
    subst hns
    rw [hrw]
    unfold asyncifySettle
    rw [if_neg (hne herr)]
    have : ¬((origFunc args).tail.length > 1) := by omega
    rw [if_neg this]
  · intro hns herr hlen
    subst hns
    have hn : (origFunc args).tail = [] := List.length_eq_zero.mp hlen
    rw [hrw]
    unfold asyncifySettle
    rw [if_neg (hne herr)]
    have : ¬((origFunc args).tail.length > 1) := by omega
    rw [if_neg this, hn]
    rfl

/-- Evaluation of C3 on the spec's own example: a method calling back
`(null, 8, "oz")`, converted with field names `["amount", "units"]` and
invoked with no arguments, resolves to an object whose "amount" field is 8. -/
theorem asyncify_promise_mode_results_witness :
    ∃ o, asyncify origPour (some ["amount", "units"]) []
        = CallResult.promise (Except.ok (JSVal.obj o)) ∧
      getProp o "amount" = some (JSVal.num 8) :=
  (asyncify_promise_mode_results origPour (some ["amount", "units"]) [] rfl).2.1
    ["amount", "units"] rfl rfl (by decide) 0 (by decide)

/-! ## Claim C6 -/

/-- C6: calling a converted method with a trailing callable argument passes
the call through unchanged to the original method in classic callback style,
with no deferred-result semantics engaged. -/
theorem asyncify_classic_passthrough (origFunc : List JSVal → List JSVal)
    (argNames : Option (List String)) (args : List JSVal)
    (h : isFunctionV (lastArg args) = true) :
    asyncify origFunc argNames args = CallResult.classic args := by
  simp [asyncify, h]

/-- Evaluation of C6: a call whose only argument is a function is delegated
classic-style. -/
theorem asyncify_classic_passthrough_witness :
    asyncify origPour none [JSVal.fn 0] = CallResult.classic [JSVal.fn 0] :=
  asyncify_classic_passthrough origPour none [JSVal.fn 0] rfl

/-! ## Asyncify selection pass lemmas -/

/-- A freshly converted property never passes the array/hash guard again
(the marker is set). -/
theorem asyncifyGuard_convertProp (p : PropVal) : asyncifyGuard (convertProp p) = false := rfl

/-- An async-native property never passes the array/hash guard. -/
theorem asyncifyGuard_of_asyncFn (p : PropVal) (h : asyncFnProp p = true) :
    asyncifyGuard p = false := by
  simp [asyncifyGuard, h]

theorem mapConvert_cons (sel : String → PropVal → Bool) (k : String) (p : PropVal)
    (rest : Proto) :
    mapConvert sel ((k, p) :: rest)
      = (if sel k p then (k, convertProp p) else (k, p)) :: mapConvert sel rest := rfl

/-- Lookup through the reflective branches: a present property is converted
exactly when the branch condition selects it. -/
theorem getProp_mapConvert (sel : String → PropVal → Bool) :
    ∀ (proto : Proto) (key : String),
      getProp (mapConvert sel proto) key
        = (getProp proto key).map (fun p => if sel key p then convertProp p else p) := by
  intro proto
  induction proto with
  | nil => intro key; rfl
  | cons e rest ih =>
      intro key
      obtain ⟨k1, p1⟩ := e
      rw [mapConvert_cons]
      by_cases hk : k1 = key
      · subst hk
        cases hs : sel k1 p1 <;> simp [getProp, hs]
      · cases hs : sel k1 p1 <;> simp [getProp, hk, ih]

/-- The reflective branches are idempotent when the condition never selects a
freshly converted property. -/
theorem mapConvert_idem (sel : String → PropVal → Bool)
    (hsel : ∀ k p, sel k (convertProp p) = false) :
    ∀ proto : Proto, mapConvert sel (mapConvert sel proto) = mapConvert sel proto := by
  intro proto
  induction proto with
  | nil => rfl
  | cons e rest ih =>
      obtain ⟨k1, p1⟩ := e
      rw [mapConvert_cons]
      cases hs : sel k1 p1 with
      | true =>
          rw [if_pos rfl, mapConvert_cons, if_neg (by simp [hsel k1 p1]), ih]
      | false =>
          rw [if_neg (by simp [hs]), mapConvert_cons, if_neg (by simp [hs]), ih]

theorem applyAsyncifyKeys_cons (k : String) (ks : List String) (proto : Proto) :
    applyAsyncifyKeys (k :: ks) proto = applyAsyncifyKeys ks (asyncifyKeyStep proto k) := rfl

/-- One step for a different name leaves a property's binding unchanged. -/
theorem getProp_asyncifyKeyStep_of_ne (pr : Proto) (k key : String) (h : k ≠ key) :
    getProp (asyncifyKeyStep pr k) key = getProp pr key := by
  unfold asyncifyKeyStep
  cases hg : getProp pr k with
  | none => rfl
  | some p =>
      cases hguard : asyncifyGuard p with
      | false => simp [hguard]
      | true => simp [hguard, getProp_setProp_of_ne pr k key (convertProp p) h]

/-- A property that is absent or fails the guard. -/
def guardFail (pr : Proto) (key : String) : Prop :=
  getProp pr key = none ∨ ∃ p, getProp pr key = some p ∧ asyncifyGuard p = false

theorem guardFail_congr (pr1 pr2 : Proto) (key : String)
    (h : getProp pr1 key = getProp pr2 key) (hf : guardFail pr2 key) :
    guardFail pr1 key := by
  unfold guardFail at *
  rw [h]
  exact hf

/-- A step at a name whose property is absent or fails the guard does
nothing. -/
theorem asyncifyKeyStep_of_guardFail (pr : Proto) (key : String)
    (h : guardFail pr key) : asyncifyKeyStep pr key = pr := by
  unfold asyncifyKeyStep
  rcases h with h | ⟨p, hp, hguard⟩
  · simp [h]
  · simp [hp, hguard]

/-- The array/hash walk never changes a binding that is absent or fails the
guard. -/
theorem applyAsyncifyKeys_pres (key : String) :
    ∀ (ks : List String) (pr : Proto), guardFail pr key →
      getProp (applyAsyncifyKeys ks pr) key = getProp pr key := by
  intro ks
  induction ks with
  | nil => intro pr _; rfl
  | cons k1 ks ih =>
      intro pr hfail
      rw [applyAsyncifyKeys_cons]
      by_cases hk : k1 = key
      · subst hk
        rw [asyncifyKeyStep_of_guardFail pr k1 hfail]
        exact ih pr hfail
      · have hstep := getProp_asyncifyKeyStep_of_ne pr k1 key hk
        rw [ih (asyncifyKeyStep pr k1) (guardFail_congr _ _ _ hstep hfail), hstep]

/-- Lookup through the array/hash walk: each binding is either untouched or
was converted once (and the name was in the walked list). -/
theorem applyAsyncifyKeys_lookup (key : String) :
    ∀ (ks : List String) (pr : Proto),
      getProp (applyAsyncifyKeys ks pr) key = getProp pr key ∨
      (key ∈ ks ∧ ∃ p, getProp pr key = some p ∧ asyncifyGuard p = true ∧
         getProp (applyAsyncifyKeys ks pr) key = some (convertProp p)) := by
  intro ks
  induction ks with
  | nil => intro pr; exact Or.inl rfl
  | cons k1 ks ih =>
      intro pr
      rw [applyAsyncifyKeys_cons]
      by_cases hk : k1 = key
      · subst hk
        cases hg : getProp pr k1 with
        | none =>
            rw [asyncifyKeyStep_of_guardFail pr k1 (Or.inl hg)]
            rcases ih pr with h | ⟨hm, p, hp, hguard, hres⟩
            · exact Or.inl (h.trans hg)
            · exact Or.inr ⟨List.mem_cons_of_mem _ hm, p, hg.symm.trans hp, hguard, hres⟩
        | some p =>
            cases hguard : asyncifyGuard p with
            | false =>
                rw [asyncifyKeyStep_of_guardFail pr k1 (Or.inr ⟨p, hg, hguard⟩)]
                rcases ih pr with h | ⟨hm, q, hq, hqg, hres⟩
                · exact Or.inl (h.trans hg)
                · exact Or.inr ⟨List.mem_cons_of_mem _ hm, q, hg.symm.trans hq, hqg, hres⟩
            | true =>
                have hstep : asyncifyKeyStep pr k1 = setProp pr k1 (convertProp p) := by
                  unfold asyncifyKeyStep
                  simp [hg, hguard]
                rw [hstep]
                have hlook : getProp (setProp pr k1 (convertProp p)) k1
                    = some (convertProp p) := getProp_setProp_self pr k1 _
                have hpres := applyAsyncifyKeys_pres k1 ks (setProp pr k1 (convertProp p))
                  (Or.inr ⟨convertProp p, hlook, asyncifyGuard_convertProp p⟩)
                exact Or.inr ⟨List.mem_cons_self k1 ks, p, rfl, hguard, by rw [hpres, hlook]⟩
      · have hstep := getProp_asyncifyKeyStep_of_ne pr k1 key hk
        rcases ih (asyncifyKeyStep pr k1) with h | ⟨hm, p, hp, hguard, hres⟩
        · exact Or.inl (h.trans hstep)
        · exact Or.inr ⟨List.mem_cons_of_mem _ hm, p, hstep ▸ hp, hguard, hres⟩

/-- After the walk, every walked name is absent or fails the guard. -/
theorem applyAsyncifyKeys_post (key : String) :
    ∀ (ks : List String) (pr : Proto), key ∈ ks →
      guardFail (applyAsyncifyKeys ks pr) key := by
  intro ks
  induction ks with
  | nil => intro pr h; cases h
  | cons k1 ks ih =>
      intro pr hmem
      rw [applyAsyncifyKeys_cons]
      by_cases hk1 : key ∈ ks
      · exact ih _ hk1
      · have hkey : k1 = key := by
          rcases List.mem_cons.mp hmem with h | h
          · exact h.symm
          · exact absurd h hk1
        subst hkey
        have hfail : guardFail (asyncifyKeyStep pr k1) k1 := by
          unfold asyncifyKeyStep
          cases hg : getProp pr k1 with
          | none => exact Or.inl (by simp [hg])
          | some p =>
              cases hguard : asyncifyGuard p with
              | false => exact Or.inr ⟨p, by simp [hg, hguard], hguard⟩
              | true =>
                  exact Or.inr ⟨convertProp p,
                    by simp [hg, hguard, getProp_setProp_self],
                    asyncifyGuard_convertProp p⟩
        have hpres := applyAsyncifyKeys_pres k1 ks _ hfail
        exact guardFail_congr _ _ _ hpres hfail

/-- The walk is the identity when every walked name is already absent or
fails the guard. -/
theorem applyAsyncifyKeys_id :
    ∀ (ks : List String) (pr : Proto),
      (∀ key, key ∈ ks → guardFail pr key) → applyAsyncifyKeys ks pr = pr := by
  intro ks
  induction ks with
  | nil => intro pr _; rfl
  | cons k1 ks ih =>
      intro pr hall
      rw [applyAsyncifyKeys_cons,
          asyncifyKeyStep_of_guardFail pr k1 (hall k1 (List.mem_cons_self k1 ks))]
      exact ih pr (fun key hm => hall key (List.mem_cons_of_mem _ hm))

/-- The three claim conjuncts, proved for the array/hash walk. -/
theorem applyAsyncifyKeys_claims (ks : List String) (proto : Proto) :
    applyAsyncifyKeys ks (applyAsyncifyKeys ks proto) = applyAsyncifyKeys ks proto
    ∧ (∀ k p, getProp proto k = some p → asyncFnProp p = true →
         getProp (applyAsyncifyKeys ks proto) k = some p)
    ∧ (∀ k q p, getProp proto k = some q →
         getProp (applyAsyncifyKeys ks proto) k = some p →
         p = q ∨ (markedProp p = true ∧ wrapDepthProp p = wrapDepthProp q + 1)) := by
  refine ⟨?_, ?_, ?_⟩
  · exact applyAsyncifyKeys_id ks _ (fun key hm => applyAsyncifyKeys_post key ks proto hm)
  · intro k p hp hasync
    rw [applyAsyncifyKeys_pres k ks proto
      (Or.inr ⟨p, hp, asyncifyGuard_of_asyncFn p hasync⟩)]
    exact hp
  · intro k q p hq hres
    rcases applyAsyncifyKeys_lookup k ks proto with h | ⟨_, p0, hp0, _, hconv⟩
    · rw [h, hq] at hres
      exact Or.inl (Option.some_inj.mp hres).symm
    · have hp0q : p0 = q := Option.some_inj.mp (hp0.symm.trans hq)
      subst hp0q
      rw [hconv] at hres
      have hpc : convertProp p0 = p := Option.some_inj.mp hres
      rw [← hpc]
      exact Or.inr ⟨rfl, rfl⟩

/-- The three claim conjuncts, proved for the reflective branches. -/
theorem mapConvert_claims (sel : String → PropVal → Bool)
    (hsel : ∀ k p, sel k (convertProp p) = false)
    (hasel : ∀ k p, asyncFnProp p = true → sel k p = false) (proto : Proto) :
    mapConvert sel (mapConvert sel proto) = mapConvert sel proto
    ∧ (∀ k p, getProp proto k = some p → asyncFnProp p = true →
         getProp (mapConvert sel proto) k = some p)
    ∧ (∀ k q p, getProp proto k = some q → getProp (mapConvert sel proto) k = some p →
         p = q ∨ (markedProp p = true ∧ wrapDepthProp p = wrapDepthProp q + 1)) := by
  refine ⟨mapConvert_idem sel hsel proto, ?_, ?_⟩
  · intro k p hp hasync
    rw [getProp_mapConvert sel proto k, hp]
    simp [hasel k p hasync]
  · intro k q p hq hres
    rw [getProp_mapConvert sel proto k, hq] at hres
    simp only [Option.map_some'] at hres
    have hpq := Option.some_inj.mp hres
    cases hs : sel k q with
    | false =>
        rw [hs] at hpq
        simp at hpq
        exact Or.inl hpq.symm
    | true =>
        rw [hs] at hpq
        simp at hpq
        subst hpq
        exact Or.inr ⟨rfl, rfl⟩

/-- The flag branch never selects a freshly converted property: the wrapper
is marked (and its visible signature no longer sniffs). -/
theorem flagSelect_convertProp (k : String) (p : PropVal) :
    flagSelect k (convertProp p) = false := by
  simp [flagSelect, convertProp, markedProp]

/-- The flag branch never selects an async-native property. -/
theorem flagSelect_of_asyncFn (k : String) (p : PropVal) (h : asyncFnProp p = true) :
    flagSelect k p = false := by
  simp [flagSelect, h]

/-- The regular-expression branch never selects a freshly converted
property. -/
theorem patternSelect_convertProp (f : String → Bool) (k : String) (p : PropVal) :
    patternSelect f k (convertProp p) = false := by
  simp [patternSelect, convertProp, markedProp]

/-- The regular-expression branch never selects an async-native property. -/
theorem patternSelect_of_asyncFn (f : String → Bool) (k : String) (p : PropVal)
    (h : asyncFnProp p = true) : patternSelect f k p = false := by
  simp [patternSelect, h]

/-! ## Claim C7 -/

/-- C7: whatever the selection policy, running the asyncify pass twice equals
running it once (a method converted by the first pass is left unchanged by
the second), async-native methods are never converted (their binding is
untouched), and any binding the pass does change carries the conversion
marker and is exactly one wrap deeper than before. -/
theorem asyncify_pass_idempotent_no_reconvert :
    ∀ (s : AsyncifySpec) (proto : Proto),
      applyAsyncify s (applyAsyncify s proto) = applyAsyncify s proto
      ∧ (∀ k p, getProp proto k = some p → asyncFnProp p = true →
           getProp (applyAsyncify s proto) k = some p)
      ∧ (∀ k q p, getProp proto k = some q → getProp (applyAsyncify s proto) k = some p →
           p = q ∨ (markedProp p = true ∧ wrapDepthProp p = wrapDepthProp q + 1)) := by
  intro s proto
  cases s with
  | flag =>
      exact mapConvert_claims flagSelect flagSelect_convertProp flagSelect_of_asyncFn proto
  | pattern f =>
      exact mapConvert_claims (patternSelect f) (patternSelect_convertProp f)
        (patternSelect_of_asyncFn f) proto
  | names ks => exact applyAsyncifyKeys_claims ks proto
  | mapping es => exact applyAsyncifyKeys_claims (es.map Prod.fst) proto

/-- Evaluation of C7 on a concrete prototype: an explicit selection naming an
async-native method and a plain callback method; the pass is idempotent, the
async-native binding is untouched, and the converted binding is marked and
single-wrapped. -/
theorem asyncify_pass_idempotent_no_reconvert_witness :
    applyAsyncify specSample (applyAsyncify specSample protoSample)
        = applyAsyncify specSample protoSample
    ∧ getProp (applyAsyncify specSample protoSample) "go" = some (PropVal.func mGoSample)
    ∧ (convertProp (PropVal.func mRunSample) = PropVal.func mRunSample ∨
        (markedProp (convertProp (PropVal.func mRunSample)) = true ∧
         wrapDepthProp (convertProp (PropVal.func mRunSample))
           = wrapDepthProp (PropVal.func mRunSample) + 1)) :=
  ⟨(asyncify_pass_idempotent_no_reconvert specSample protoSample).1,
   (asyncify_pass_idempotent_no_reconvert specSample protoSample).2.1 "go"
     (PropVal.func mGoSample) rfl rfl,
   (asyncify_pass_idempotent_no_reconvert specSample protoSample).2.2 "run"
     (PropVal.func mRunSample) (convertProp (PropVal.func mRunSample)) rfl rfl⟩

/-! ## Claim C9 -/

/-- C9 counterexample: under the simple truthy flag, a method whose last
declared parameter is named `mycb` - not literally `callback` or `cb` - is
nevertheless converted (the sniffing regular expression only requires the
parameter list to end in `callback` or `cb`), so "exactly those methods whose
last declared parameter is literally named callback or cb" is false. -/
theorem sniff_converts_cb_suffix_cex :
    getProp (applyAsyncify AsyncifySpec.flag [("run", PropVal.func mMycb)]) "run"
      = some (PropVal.func { isAsyncFn := true, asyncMark := true, wrapDepth := 1,
                             params := ["...args"] }) := rfl

/-- C9 (amended): under the simple truthy flag, exactly those instance
methods are converted whose last declared parameter's name ends with
`callback` or `cb` (in particular any literally so named), excluding the
reserved names `__name`/`constructor`/`prototype`, non-functions, and
methods already marked or async-native: a present property is rewritten to
its converted form when `flagSelect` holds of it and kept verbatim
otherwise. -/
theorem sniff_selection_by_suffix :
    ∀ (proto : Proto) (key : String) (p : PropVal), getProp proto key = some p →
      (flagSelect key p = true →
         getProp (applyAsyncify AsyncifySpec.flag proto) key = some (convertProp p))
      ∧ (flagSelect key p = false →
         getProp (applyAsyncify AsyncifySpec.flag proto) key = some p) := by
  intro proto key p hg
  constructor <;> intro hs <;>
    · show getProp (mapConvert flagSelect proto) key = _
      rw [getProp_mapConvert flagSelect proto key, hg]
      simp [hs]

/-- Evaluation of C9 (amended) on a concrete prototype: the method with last
parameter literally `callback` is converted, the method with no callback
parameter is kept. -/
theorem sniff_selection_by_suffix_witness :
    getProp (applyAsyncify AsyncifySpec.flag protoSniffSample) "sleep"
      = some (convertProp (PropVal.func mSleep))
    ∧ getProp (applyAsyncify AsyncifySpec.flag protoSniffSample) "foo"
      = some (PropVal.func mFoo) :=
  ⟨(sniff_selection_by_suffix protoSniffSample "sleep" (PropVal.func mSleep) rfl).1 rfl,
   (sniff_selection_by_suffix protoSniffSample "foo" (PropVal.func mFoo) rfl).2 rfl⟩

/-! ## Mixin merge lemmas -/

theorem mergeEntries_cons (excl : String → Bool) (tgt : Proto) (e : String × PropVal)
    (rest : Proto) :
    mergeEntries excl tgt (e :: rest) = mergeEntries excl (mergeStep excl tgt e) rest := rfl

/-- Lookup through one copy loop: an entry the target already has keeps its
value; a reserved name is never copied; otherwise the source's (first)
binding is adopted. -/
theorem getProp_mergeEntries (excl : String → Bool) (key : String) :
    ∀ (src tgt : Proto),
      getProp (mergeEntries excl tgt src) key =
        match getProp tgt key with
        | some v => some v
        | none => if excl key then none else getProp src key := by
  intro src
  induction src with
  | nil =>
      intro tgt
      cases hg : getProp tgt key with
      | some v => simp [mergeEntries, hg]
      | none =>
          cases hexcl : excl key <;> simp [mergeEntries, getProp, hg, hexcl]
  | cons e rest ih =>
      intro tgt
      obtain ⟨k1, v1⟩ := e
      rw [mergeEntries_cons, ih]
      by_cases hk : k1 = key
      · subst hk
        cases hg : getProp tgt k1 with
        | some v =>
            have hstep : mergeStep excl tgt (k1, v1) = tgt ∨
                mergeStep excl tgt (k1, v1) = tgt ++ [(k1, v1)] := by
              unfold mergeStep
              cases hc : (!excl k1 && !hasProp tgt k1) <;> simp
            rcases hstep with h | h <;> rw [h] <;>
              simp [getProp_append, getProp, hg]
        | none =>
            cases hexcl : excl k1 with
            | true =>
                have hstep : mergeStep excl tgt (k1, v1) = tgt := by
                  unfold mergeStep
                  simp [hexcl]
                rw [hstep]
                simp [getProp, hg, hexcl]
            | false =>
                have hstep : mergeStep excl tgt (k1, v1) = tgt ++ [(k1, v1)] := by
                  unfold mergeStep
                  simp [hexcl, hasProp, hg]
                rw [hstep]
                simp [getProp_append, getProp, hg, hexcl]
      · have hstep : getProp (mergeStep excl tgt (k1, v1)) key = getProp tgt key := by
          unfold mergeStep
          cases hc : (!excl k1 && !hasProp tgt k1) with
          | false => simp
          | true =>
              rw [if_pos rfl, getProp_append]
              cases hg2 : getProp tgt key <;> simp [hg2, getProp, hk]
        rw [hstep]
        cases hg : getProp tgt key with
        | some v => simp
        | none => simp [getProp, hk]

/-- Merging any mixin never changes a binding the target already has. -/
theorem getProp_mergeOne_pres_proto (tgt src : Construct) (key : String) (v : PropVal)
    (h : getProp tgt.proto key = some v) :
    getProp (mergeOne tgt src).proto key = some v := by
  show getProp (mergeEntries protoReservedName tgt.proto src.proto) key = some v
  rw [getProp_mergeEntries, h]

theorem getProp_mergeOne_pres_statics (tgt src : Construct) (key : String) (v : PropVal)
    (h : getProp tgt.statics key = some v) :
    getProp (mergeOne tgt src).statics key = some v := by
  show getProp (mergeEntries staticReservedName tgt.statics src.statics) key = some v
  rw [getProp_mergeEntries, h]

/-! ## Claim C8 -/

/-- C8: merging a mixin list never changes an instance-template or
static-table entry the target already has (the target's own declarations
always win), and for a member name present in both mixins `A` and `B` of the
ordered list `[A, B]` but absent from the target (and not reserved), the
merged value is `A`'s - the earlier mixin wins over the later, on the
instance template and on the static table alike. -/
theorem mixin_merge_first_wins :
    (∀ (tgt : Construct) (ms : List Construct) (key : String) (v : PropVal),
       getProp tgt.proto key = some v → getProp (mergeMixins tgt ms).proto key = some v)
    ∧ (∀ (tgt : Construct) (ms : List Construct) (key : String) (v : PropVal),
       getProp tgt.statics key = some v → getProp (mergeMixins tgt ms).statics key = some v)
    ∧ (∀ (tgt a b : Construct) (key : String) (v w : PropVal),
       hasProp tgt.proto key = false → protoReservedName key = false →
       getProp a.proto key = some v → getProp b.proto key = some w →
       getProp (mergeMixins tgt [a, b]).proto key = some v)
    ∧ (∀ (tgt a b : Construct) (key : String) (v w : PropVal),
       hasProp tgt.statics key = false → staticReservedName key = false →
       getProp a.statics key = some v → getProp b.statics key = some w →
       getProp (mergeMixins tgt [a, b]).statics key = some v) := by
  have habs : ∀ (l : Proto) (key : String), hasProp l key = false → getProp l key = none := by
    intro l key h
    cases hg : getProp l key with
    | none => rfl
    | some v => rw [hasProp, hg] at h; simp at h
  refine ⟨?_, ?_, ?_, ?_⟩
  · intro tgt ms
    induction ms generalizing tgt with
    | nil => intro key v h; exact h
    | cons src rest ih =>
        intro key v h
        exact ih (mergeOne tgt src) key v (getProp_mergeOne_pres_proto tgt src key v h)
  · intro tgt ms
    induction ms generalizing tgt with
    | nil => intro key v h; exact h
    | cons src rest ih =>
        intro key v h
        exact ih (mergeOne tgt src) key v (getProp_mergeOne_pres_statics tgt src key v h)
  · intro tgt a b key v w habsent hres hgA hgB
    have h1 : getProp (mergeOne tgt a).proto key = some v := by
      show getProp (mergeEntries protoReservedName tgt.proto a.proto) key = some v
      rw [getProp_mergeEntries, habs tgt.proto key habsent, hres, hgA]
      simp
    exact getProp_mergeOne_pres_proto (mergeOne tgt a) b key v h1
  · intro tgt a b key v w habsent hres hgA hgB
    have h1 : getProp (mergeOne tgt a).statics key = some v := by
      show getProp (mergeEntries staticReservedName tgt.statics a.statics) key = some v
      rw [getProp_mergeEntries, habs tgt.statics key habsent, hres, hgA]
      simp
    exact getProp_mergeOne_pres_statics (mergeOne tgt a) b key v h1

/-- Evaluation of C8 on concrete constructs: the target's own "own" member
survives the merge unchanged, and for "shared" - contributed by both mixins -
the first mixin's value wins. -/
theorem mixin_merge_first_wins_witness :
    getProp (mergeMixins tgtSample [mixASample, mixBSample]).proto "own"
        = some (PropVal.val (JSVal.num 1))
    ∧ getProp (mergeMixins tgtSample [mixASample, mixBSample]).proto "shared"
        = some (PropVal.val (JSVal.num 2)) :=
  ⟨mixin_merge_first_wins.1 tgtSample [mixASample, mixBSample] "own"
     (PropVal.val (JSVal.num 1)) rfl,
   mixin_merge_first_wins.2.2.1 tgtSample mixASample mixBSample "shared"
     (PropVal.val (JSVal.num 2)) (PropVal.val (JSVal.num 3)) rfl rfl rfl rfl⟩

/-! ## Instance-default copy lemmas -/

theorem applyDefaults_cons (e : String × PropVal) (rest : Proto) (proto : Proto) :
    applyDefaults (e :: rest) proto = applyDefaults rest (defaultStep proto e) := rfl

/-- Keys not occurring in the configuration keep their prototype binding. -/
theorem getProp_applyDefaults_not_mem (key : String) :
    ∀ (args : Proto) (proto : Proto), key ∉ args.map Prod.fst →
      getProp (applyDefaults args proto) key = getProp proto key := by
  intro args
  induction args with
  | nil => intro proto _; rfl
  | cons e rest ih =>
      intro proto hmem
      obtain ⟨k1, v1⟩ := e
      have hk : k1 ≠ key := by
        intro h
        exact hmem (by simp [h])
      have hrest : key ∉ rest.map Prod.fst := fun h => hmem (by simp [h])
      rw [applyDefaults_cons, ih _ hrest]
      unfold defaultStep
      cases hc : copiedAsDefault k1 with
      | false => simp
      | true => simp [getProp_setProp_of_ne proto k1 key v1 hk]

/-! ## Claim C4 -/

/-- C4 counterexample: the reserved mixin-list directive key `__mixins` IS
copied onto the instance template by the final loop (the filter
`/^__(static|asyncify|events|hooks)/` does not mention `mixins`), so the
claim that none of the reserved directive keys is copied is false. -/
theorem defaults_copies_mixins_key_cex :
    getProp (applyDefaults [("__mixins", PropVal.val (JSVal.num 1))] []) "__mixins"
      = some (PropVal.val (JSVal.num 1)) := rfl

/-- C4 (amended): the final loop copies onto the instance template exactly
the configuration keys that do not start with `__static`, `__asyncify`,
`__events` or `__hooks`: a filtered-out key leaves the prototype binding
unchanged, a kept key present in the configuration (keys being unique) is
copied verbatim, and a kept key absent from the configuration leaves the
prototype unchanged.  In particular the reserved mixin-list key `__mixins`
is copied like an ordinary key. -/
theorem defaults_copy_key_filter :
    ∀ (args : Proto) (proto : Proto) (key : String), (args.map Prod.fst).Nodup →
      (copiedAsDefault key = false →
         getProp (applyDefaults args proto) key = getProp proto key)
      ∧ (∀ v, copiedAsDefault key = true → getProp args key = some v →
         getProp (applyDefaults args proto) key = some v)
      ∧ (copiedAsDefault key = true → getProp args key = none →
         getProp (applyDefaults args proto) key = getProp proto key) := by
  intro args
  induction args with
  | nil =>
      intro proto key _
      exact ⟨fun _ => rfl, fun v _ h => by simp [getProp] at h, fun _ _ => rfl⟩
  | cons e rest ih =>
      intro proto key hnd
      obtain ⟨k1, v1⟩ := e
      have hnd1 : k1 ∉ rest.map Prod.fst ∧ (rest.map Prod.fst).Nodup := by
        simpa [List.nodup_cons] using hnd
      refine ⟨?_, ?_, ?_⟩
      · intro hc
        rw [applyDefaults_cons, (ih (defaultStep proto (k1, v1)) key hnd1.2).1 hc]
        unfold defaultStep
        by_cases hk : k1 = key
        · subst hk
          rw [hc]
          simp
        · cases hcc : copiedAsDefault k1 with
          | false => simp
          | true => simp [getProp_setProp_of_ne proto k1 key v1 hk]
      · intro v hc hg
        by_cases hk : k1 = key
        · subst hk
          have hv : v1 = v := by simpa [getProp] using hg
          rw [applyDefaults_cons,
              getProp_applyDefaults_not_mem k1 rest _ hnd1.1]
          unfold defaultStep
          rw [hc]
          simp [getProp_setProp_self, hv]
        · have hg2 : getProp rest key = some v := by
            simpa [getProp, hk] using hg
          rw [applyDefaults_cons]
          exact (ih (defaultStep proto (k1, v1)) key hnd1.2).2.1 v hc hg2
      · intro hc hg
        have hk : k1 ≠ key := by
          intro h
          subst h
          simp [getProp] at hg
        have hg2 : getProp rest key = none := by
          simpa [getProp, hk] using hg
        rw [applyDefaults_cons, (ih (defaultStep proto (k1, v1)) key hnd1.2).2.2 hc hg2]
        unfold defaultStep
        cases hcc : copiedAsDefault k1 with
        | false => simp
        | true => simp [getProp_setProp_of_ne proto k1 key v1 hk]

/-- Evaluation of C4 (amended) on a concrete configuration: the ordinary key
"plain" is copied, the reserved key "__events" is not. -/
theorem defaults_copy_key_filter_witness :
    getProp (applyDefaults argsSample []) "plain" = some (PropVal.val (JSVal.num 2))
    ∧ getProp (applyDefaults argsSample []) "__events" = getProp ([] : Proto) "__events" :=
  ⟨(defaults_copy_key_filter argsSample [] "plain" (by decide)).2.1
     (PropVal.val (JSVal.num 2)) rfl rfl,
   (defaults_copy_key_filter argsSample [] "__events" (by decide)).1 rfl⟩

/-! ## Claim C10 -/

/-- C10: when the events or hooks capability flag is set and an explicit
mixin list was supplied, the capability classes are prepended into the
caller's own mixin-list array in place: afterwards the configuration object
itself holds the longer list (the same one the merge loop walks), with the
hook capability first, then the event emitter, then the caller's entries. -/
theorem capability_prepend_mutates_config (args : MixArgs) (l : List MixinSrc)
    (hflag : args.eventsFlag = true ∨ args.hooksFlag = true)
    (hml : args.mixinsList = some l) :
    ∃ l2, (assembleMixins args).2.mixinsList = some l2 ∧ (assembleMixins args).1 = l2 ∧
      l.length < l2.length ∧
      l2 = (if args.hooksFlag then [MixinSrc.hookHelper] else [])
           ++ (if args.eventsFlag then [MixinSrc.eventEmitter] else []) ++ l := by
  obtain ⟨ml, ev, hk⟩ := args
  simp only at hml
  subst hml
  simp only at hflag
  cases ev <;> cases hk <;>
    simp_all [assembleMixins] <;> omega

/-- Evaluation of C10: a configuration with a one-element mixin list and the
hooks flag ends up holding a two-element list led by the hook capability. -/
theorem capability_prepend_mutates_config_witness :
    ∃ l2, (assembleMixins mixArgsSample).2.mixinsList = some l2 ∧
      (assembleMixins mixArgsSample).1 = l2 ∧
      ([MixinSrc.user 0] : List MixinSrc).length < l2.length ∧
      l2 = (if mixArgsSample.hooksFlag then [MixinSrc.hookHelper] else [])
           ++ (if mixArgsSample.eventsFlag then [MixinSrc.eventEmitter] else [])
           ++ [MixinSrc.user 0] :=
  capability_prepend_mutates_config mixArgsSample [MixinSrc.user 0] (Or.inr rfl) rfl

end ClassPlus
